import Mathlib

/-!
Shallow embedding of `system_file_saver.py` (agude/System-File-Saver).

The program has two components:

* `FileList` — reads a manifest file line by line.  A line is skipped when it
  starts with `#`, is empty, or is exactly a newline.  Otherwise the line's
  fully stripped form (`l = line.strip()`) is tested with `os.path.isfile`;
  on success the RAW line (newline included) is added to a Python set, on
  failure a warning is printed when `verbosity >= 1`.  `FileList.__split`
  then adds, for each entry, every parent produced by iterating
  `os.path.split(...)[0]` until the parent equals `'/'`.

* `Rsyncer` — checks `os.path.isdir(target_directory)`, then builds the
  rsync command list `[rsync_loc, verb, "--archive", flags, --include=...,
  "--exclude='*'", "/", normpath(target + '/' + hostname)]`, joins it with
  spaces and calls it, with stdout redirected to `/dev/null` when
  `verbosity < 1`.

The filesystem is abstracted as predicates `isfileP`, `isdirP : String → Bool`.
Process exit (`sys.exit`) is modelled with `Except ExitInfo`.
-/

/-- Python whitespace characters recognised by `str.strip()` (ASCII range;
manifest lines in the claims only involve these). -/
def pyIsSpace (c : Char) : Bool :=
  c == ' ' || c == '\t' || c == '\n' || c == '\r' || c == '\x0b' || c == '\x0c'

/-- Python `str.strip()`: remove leading and trailing whitespace.  This is
what `FileList.__init__` computes as `l = line.strip()` before the
`isfile` check, and what `Rsyncer.__buildCommand` computes as `f.strip()`. -/
def pyStrip (s : String) : String :=
  ⟨((s.data.dropWhile pyIsSpace).reverse.dropWhile pyIsSpace).reverse⟩

/-- Modelled from the spec's words for claim C9 (not from the code): the
line with ONLY trailing whitespace/newline trimmed, leading whitespace
kept.  Used to compare the spec's described candidate path with the one
the code actually uses (`pyStrip`). -/
def trailingTrim (s : String) : String :=
  ⟨(s.data.reverse.dropWhile pyIsSpace).reverse⟩

/-- Python `line.startswith('#')`: the raw line's first character is `#`. -/
def startswithHash (s : String) : Bool := s.data.head? == some '#'

/-- The skip test of `FileList.__init__`:
`if line.startswith('#') or not line or line == '\n': continue`. -/
def skipLine (line : String) : Bool :=
  startswithHash line || line == "" || line == "\n"

/-- The raw entry set built by the reading loop of `FileList.__init__`:
for each non-skipped line whose stripped form passes `isfile`, the RAW
line is added to the set (`self.files.add(line)`). -/
def rawEntries (isfileP : String → Bool) (lines : List String) : Finset String :=
  lines.foldl (fun acc line =>
    if skipLine line then acc
    else if isfileP (pyStrip line) then insert line acc
    else acc) ∅

/-- The warning text printed by `print(line, " is not a valid file!")`
(Python's `print` separates the two arguments with one space). -/
def warnFor (line : String) : String := line ++ "  is not a valid file!"

/-- The warnings printed by the reading loop of `FileList.__init__`: one
message per non-skipped line whose stripped form fails `isfile`, printed
only when `verbosity >= 1`. -/
def loaderWarnings (isfileP : String → Bool) (verbosity : Nat) (lines : List String) :
    List String :=
  lines.filterMap (fun line =>
    if skipLine line then none
    else if isfileP (pyStrip line) then none
    else if 1 ≤ verbosity then some (warnFor line) else none)

/-- The head component of CPython's `posixpath.split`:
`i = p.rfind('/') + 1; head = p[:i]`, then
`if head and head != '/'*len(head): head = head.rstrip('/')`. -/
def pySplitHead (s : String) : String :=
  let rev := s.data.reverse
  let headRev := rev.dropWhile (fun c => !(c == '/'))
  if headRev.isEmpty || headRev.all (fun c => c == '/') then ⟨headRev.reverse⟩
  else ⟨(headRev.dropWhile (fun c => c == '/')).reverse⟩

/-- The `while newpath != '/':` loop of `FileList.__split`, collecting every
visited `newpath`.  The Python loop has no fuel; `fuel` only bounds the
number of iterations of the model.  Each iteration of the Python loop that
makes progress strictly shortens the string, so a fuel equal to the starting
string's length dominates every terminating run of the Python loop. -/
def ancWalk : Nat → String → List String
  | 0, _ => []
  | fuel + 1, p => if p = "/" then [] else p :: ancWalk fuel (pySplitHead p)

/-- All parents of `f` collected by `FileList.__split` for one entry:
`newpath = split(f)[0]` followed by the `while` loop. -/
def pyAncestors (f : String) : List String := ancWalk f.length (pySplitHead f)

/-- `FileList.__split`: the union of the entry set with every collected
parent (`self.files.union(tmpset)`). -/
def splitClosure (files : Finset String) : Finset String :=
  files ∪ files.biUnion (fun f => (pyAncestors f).toFinset)

/-- The final `self.files` of a `FileList`: raw entries closed under the
parent walk. -/
def fileListFiles (isfileP : String → Bool) (lines : List String) : Finset String :=
  splitClosure (rawEntries isfileP lines)

/-- Join path components with `'/'` (CPython's `'/'.join`, specialised to
character lists). -/
def joinCompsData : List (List Char) → List Char
  | [] => []
  | [c] => c
  | c :: c2 :: cs => c ++ '/' :: joinCompsData (c2 :: cs)

/-- The absolute path with the given separator-delimited components:
`/` followed by the components joined with `/`. -/
def mkPath (comps : List (List Char)) : String := ⟨'/' :: joinCompsData comps⟩

/-- A well-formed component list for an absolute file path: at least one
component, each component non-empty and free of the separator. -/
def validC (comps : List (List Char)) : Prop :=
  comps ≠ [] ∧ ∀ c ∈ comps, c ≠ [] ∧ ∀ ch ∈ c, ch ≠ '/'

instance (comps : List (List Char)) : Decidable (validC comps) := by
  unfold validC; infer_instance

/-- A string that is an absolute file path in the sense of the spec:
`/`-separated non-empty components, single leading separator, no trailing
separator. -/
def validPathStr (p : String) : Prop := ∃ comps, validC comps ∧ p = mkPath comps

/-- The descending chain of paths `[mkPath comps, mkPath comps.dropLast, …,
mkPath (comps.take 1)]`; the shape the parent walk produces on a
well-formed path. -/
def chainPaths : List (List Char) → List String
  | [] => []
  | c :: cs => mkPath (c :: cs) :: chainPaths (c :: cs).dropLast
termination_by l => l.length
decreasing_by simp [List.length_dropLast]

/-- The verbosity argument of `Rsyncer.__buildCommand`:
`--verbose` when `verbosity >= 2`, `--quiet` when `verbosity == 0`, empty
string otherwise. -/
def verbFlag (v : Nat) : String :=
  if 2 ≤ v then "--verbose" else if v = 0 then "--quiet" else ""

/-- Python `' '.join(...)`. -/
def spaceJoin (l : List String) : String := String.intercalate " " l

/-- Python `str.split('/')` on character lists (used by `posixpath.normpath`). -/
def splitOnSlash : List Char → List (List Char)
  | [] => [[]]
  | c :: rest =>
    if c == '/' then [] :: splitOnSlash rest
    else
      match splitOnSlash rest with
      | [] => [[c]]
      | r :: rs => (c :: r) :: rs

/-- CPython's `posixpath.normpath`, used by the source as
`normpath(self.target_directory + '/' + self.hostname)`. -/
def pyNormpath (path : String) : String :=
  if path = "" then "."
  else
    let slashes : Nat :=
      if path.data.take 1 = ['/'] then
        if path.data.take 2 = ['/', '/'] ∧ path.data.take 3 ≠ ['/', '/', '/'] then 2 else 1
      else 0
    let comps := splitOnSlash path.data
    let newComps := comps.foldl (fun acc comp =>
      if comp = [] ∨ comp = ['.'] then acc
      else if comp ≠ ['.', '.'] ∨ (slashes = 0 ∧ acc = []) ∨ acc.getLast? = some ['.', '.'] then
        acc ++ [comp]
      else if acc ≠ [] then acc.dropLast
      else acc) []
    let res := List.replicate slashes '/' ++ joinCompsData newComps
    if res = [] then "." else ⟨res⟩

/-- Modelled from the spec's words for claim C3 (not from the code):
CPython's `posixpath.join` on two arguments, which the spec names as the
destination computation.  The code actually computes
`normpath(target_directory + '/' + hostname)`. -/
def pyJoin (a b : String) : String :=
  if b.data.take 1 = ['/'] then b
  else if a = "" ∨ a.data.getLast? = some '/' then a ++ b
  else a ++ "/" ++ b

/-- The command list built by `Rsyncer.__buildCommand`:
`[rsync_loc, verb, "--archive"]`, then the single space-joined extra-flags
string, then one `--include=<f.strip()>` per entry, then the catch-all
exclude, then the source root `/`, then
`normpath(target_directory + '/' + hostname)`. -/
def buildCommand (rsync_loc : String) (v : Nat) (flagsStr : String)
    (files : List String) (target host : String) : List String :=
  [rsync_loc, verbFlag v, "--archive"] ++ [flagsStr]
    ++ files.map (fun f => "--include=" ++ pyStrip f)
    ++ ["--exclude='*'"] ++ ["/"]
    ++ [pyNormpath (target ++ "/" ++ host)]

/-- Outcome of `sys.exit`: the process exit code and the message written to
standard error, if any (`sys.exit(1)` writes none, `sys.exit("msg")` writes
the message and exits with code 1). -/
structure ExitInfo where
  code : Nat
  stderrMsg : Option String
deriving DecidableEq

/-- The exit performed at each fatal check:
`exit("msg")` when `verbosity >= 1`, silent `exit(1)` otherwise. -/
def exitWith (v : Nat) (msg : String) : ExitInfo :=
  if 1 ≤ v then ⟨1, some msg⟩ else ⟨1, none⟩

/-- The one subprocess invocation performed at the end of
`Rsyncer.__buildCommand`: the argument list, the space-joined command
string passed to `call(com, shell=True)`, and whether stdout is redirected
to `/dev/null` (which happens exactly when `verbosity < 1`). -/
structure Invocation where
  command : List String
  com : String
  stdoutToDevnull : Bool

/-- `FileList.__init__`: exit if the manifest is not a file, otherwise
produce the closed file set and the printed warnings. -/
def fileListLoad (isfileP : String → Bool) (input_file : String)
    (manifestLines : List String) (v : Nat) :
    Except ExitInfo (Finset String × List String) :=
  if isfileP input_file then
    .ok (fileListFiles isfileP manifestLines, loaderWarnings isfileP v manifestLines)
  else .error (exitWith v "Input file list not found!")

/-- `Rsyncer.__init__`: exit if the target directory does not exist,
otherwise build the command and invoke it once. -/
def rsyncerInit (isdirP : String → Bool) (rsync_loc : String) (files : List String)
    (target host : String) (v : Nat) (flagsStr : String) :
    Except ExitInfo Invocation :=
  if isdirP target then
    let cmd := buildCommand rsync_loc v flagsStr files target host
    .ok ⟨cmd, spaceJoin cmd, if 1 ≤ v then false else true⟩
  else .error (exitWith v "Target directory not found!")

/-- Verbosity selection in `__main__`: `0` for `--quiet`, else `2` for
`--verbose`, else `1`. -/
def mainVerbosity (quiet verbose : Bool) : Nat :=
  if quiet then 0 else if verbose then 2 else 1

/-- The extra flag list collected in `__main__`, in the fixed order
dry-run, itemize-changes, checksum, delete-after. -/
def mainFlags (dry itemize checksum deleteAfter : Bool) : List String :=
  (if dry then ["--dry-run"] else []) ++ (if itemize then ["--itemize-changes"] else [])
    ++ (if checksum then ["--checksum"] else [])
    ++ (if deleteAfter then ["--delete-after"] else [])

/-- The `__main__` block: compute verbosity, exit if rsync cannot be found,
default the hostname, collect flags, build the `FileList` (exit if the
manifest is missing) and run the `Rsyncer` (exit if the target directory is
missing).  An `.error` result is a process exit before any subprocess is
invoked; `.ok` carries the single invocation and the printed warnings.
The Python set is iterated in unspecified order; the model fixes the sorted
enumeration. -/
def mainRun (isfileP isdirP : String → Bool) (rsyncLocOpt : Option String)
    (manifestLines : List String) (quiet verbose dry itemize checksum deleteAfter : Bool)
    (hostOpt : Option String) (machineHost : String) (input_file target : String) :
    Except ExitInfo (Invocation × List String) :=
  let v := mainVerbosity quiet verbose
  match rsyncLocOpt with
  | none => .error (exitWith v "Can not find rsync.")
  | some rsync_loc =>
    let host := hostOpt.getD machineHost
    let flagsStr := spaceJoin (mainFlags dry itemize checksum deleteAfter)
    match fileListLoad isfileP input_file manifestLines v with
    | .error e => .error e
    | .ok (files, warns) =>
      match rsyncerInit isdirP rsync_loc (files.sort (· ≤ ·)) target host v flagsStr with
      | .error e => .error e
      | .ok inv => .ok (inv, warns)

/-- Test for a `--include=` command argument. -/
def isIncludeArg (s : String) : Bool :=
  decide (s.data.take ("--include=".data.length) = "--include=".data)

theorem mem_rawEntries (isfileP : String → Bool) (lines : List String) (s : String) :
    s ∈ rawEntries isfileP lines ↔
      s ∈ lines ∧ skipLine s = false ∧ isfileP (pyStrip s) = true := by
  have key : ∀ (ls : List String) (acc : Finset String),
      s ∈ ls.foldl (fun acc line =>
        if skipLine line then acc
        else if isfileP (pyStrip line) then insert line acc
        else acc) acc ↔
      s ∈ acc ∨ (s ∈ ls ∧ skipLine s = false ∧ isfileP (pyStrip s) = true) := by
    intro ls
    induction ls with
    | nil => intro acc; simp
    | cons l t ih =>
      intro acc
      simp only [List.foldl_cons]
      cases h1 : skipLine l with
      | true =>
        rw [if_pos rfl, ih]
        constructor
        · rintro (ha | ⟨hs, hsk, hf⟩)
          · exact Or.inl ha
          · exact Or.inr ⟨List.mem_cons_of_mem _ hs, hsk, hf⟩
        · rintro (ha | ⟨hs, hsk, hf⟩)
          · exact Or.inl ha
          · rcases List.mem_cons.mp hs with rfl | hs'
            · rw [h1] at hsk; cases hsk
            · exact Or.inr ⟨hs', hsk, hf⟩
      | false =>
        rw [if_neg Bool.false_ne_true]
        cases h2 : isfileP (pyStrip l) with
        | true =>
          rw [if_pos rfl, ih]
          constructor
          · rintro (hins | ⟨hs, hsk, hf⟩)
            · rcases Finset.mem_insert.mp hins with rfl | ha
              · exact Or.inr ⟨List.mem_cons_self _ _, h1, h2⟩
              · exact Or.inl ha
            · exact Or.inr ⟨List.mem_cons_of_mem _ hs, hsk, hf⟩
          · rintro (ha | ⟨hs, hsk, hf⟩)
            · exact Or.inl (Finset.mem_insert.mpr (Or.inr ha))
            · rcases List.mem_cons.mp hs with rfl | hs'
              · exact Or.inl (Finset.mem_insert_self _ _)
              · exact Or.inr ⟨hs', hsk, hf⟩
        | false =>
          rw [if_neg Bool.false_ne_true, ih]
          constructor
          · rintro (ha | ⟨hs, hsk, hf⟩)
            · exact Or.inl ha
            · exact Or.inr ⟨List.mem_cons_of_mem _ hs, hsk, hf⟩
          · rintro (ha | ⟨hs, hsk, hf⟩)
            · exact Or.inl ha
            · rcases List.mem_cons.mp hs with rfl | hs'
              · rw [h2] at hf; cases hf
              · exact Or.inr ⟨hs', hsk, hf⟩
  rw [rawEntries, key]
  simp

theorem pyStrip_eq_empty_of_all_space (s : String) (h : ∀ c ∈ s.data, pyIsSpace c = true) :
    pyStrip s = "" := by
  have h1 : s.data.dropWhile pyIsSpace = [] := by
    rw [List.dropWhile_eq_nil_iff]
    exact h
  rw [pyStrip, h1]
  rfl

theorem loaderWarnings_append (isfileP : String → Bool) (v : Nat) (l1 l2 : List String) :
    loaderWarnings isfileP v (l1 ++ l2) =
      loaderWarnings isfileP v l1 ++ loaderWarnings isfileP v l2 := by
  rw [loaderWarnings, loaderWarnings, loaderWarnings, List.filterMap_append]

theorem loaderWarnings_cons_invalid (isfileP : String → Bool) (v : Nat) (bad : String)
    (rest : List String) (h1 : skipLine bad = false) (h2 : isfileP (pyStrip bad) = false)
    (hv : 1 ≤ v) :
    loaderWarnings isfileP v (bad :: rest) = warnFor bad :: loaderWarnings isfileP v rest := by
  rw [loaderWarnings, loaderWarnings]
  refine List.filterMap_cons_some ?_
  rw [if_neg (by rw [h1]; exact Bool.false_ne_true), if_neg (by rw [h2]; exact Bool.false_ne_true),
    if_pos hv]

theorem loaderWarnings_quiet (isfileP : String → Bool) (lines : List String) :
    loaderWarnings isfileP 0 lines = [] := by
  rw [loaderWarnings, List.filterMap_eq_nil_iff]
  intro a _
  by_cases hs : skipLine a = true
  · rw [if_pos hs]
  · rw [if_neg hs]
    by_cases hf : isfileP (pyStrip a) = true
    · rw [if_pos hf]
    · rw [if_neg hf, if_neg (by omega)]

/-- C6: manifest lines that are empty, exactly a newline, whitespace-only,
or begin with `#` never appear in the loaded entry set, for any
surrounding lines.  The only hypothesis on the filesystem is that the
empty string is not a regular file (true of every operating system): a
whitespace-only line is not caught by the skip test, but its stripped form
is the empty string, so the `isfile` check rejects it. -/
theorem c6_blank_comment_lines_excluded (isfileP : String → Bool) (lines : List String)
    (line : String) (hfs : isfileP "" = false)
    (h : line = "" ∨ line = "\n" ∨ line.data.all pyIsSpace = true ∨ startswithHash line = true) :
    line ∉ rawEntries isfileP lines := by
  intro hmem
  rw [mem_rawEntries] at hmem
  obtain ⟨-, hsk, hf⟩ := hmem
  rcases h with rfl | rfl | hws | hh
  · have ht : skipLine "" = true := by decide
    rw [ht] at hsk
    cases hsk
  · have ht : skipLine "\n" = true := by decide
    rw [ht] at hsk
    cases hsk
  · rw [pyStrip_eq_empty_of_all_space line (List.all_eq_true.mp hws), hfs] at hf
    cases hf
  · rw [skipLine, hh] at hsk
    simp at hsk

theorem c6_witness :
    ((fun s => s == "/etc") : String → Bool) "" = false
    ∧ (" \n" : String) ∉ rawEntries (fun s => s == "/etc") [" \n", "/etc"] :=
  ⟨by decide, c6_blank_comment_lines_excluded (fun s => s == "/etc") [" \n", "/etc"] " \n"
    (by decide) (Or.inr (Or.inr (Or.inl (by decide))))⟩

/-- C8 (amended): the string added to the raw entry set is the raw manifest
line verbatim — the trailing newline is NOT stripped (the code adds `line`,
not the stripped `l`).  Entries are a set keyed by exact string equality,
so repeating an identical raw line collapses to one entry.  Membership is
characterised completely: a string is in the raw entry set exactly when it
occurs as a manifest line, is not skipped, and its fully stripped form
passes the `isfile` check. -/
theorem c8_raw_line_added (isfileP : String → Bool) (lines : List String) (s : String) :
    (s ∈ rawEntries isfileP lines ↔
      s ∈ lines ∧ skipLine s = false ∧ isfileP (pyStrip s) = true)
    ∧ ∀ l ls, rawEntries isfileP (l :: l :: ls) = rawEntries isfileP (l :: ls) := by
  refine ⟨mem_rawEntries isfileP lines s, ?_⟩
  intro l ls
  apply Finset.ext
  intro t
  rw [mem_rawEntries, mem_rawEntries]
  constructor
  · rintro ⟨hmem, hrest⟩
    rcases List.mem_cons.mp hmem with rfl | hmem'
    · exact ⟨List.mem_cons_self _ _, hrest⟩
    · exact ⟨hmem', hrest⟩
  · rintro ⟨hmem, hrest⟩
    exact ⟨List.mem_cons_of_mem _ hmem, hrest⟩

theorem c8_counterexample :
    ("/etc/hosts\n" : String) ∈ rawEntries (fun s => s == "/etc/hosts") ["/etc/hosts\n"]
    ∧ ("/etc/hosts" : String) ∉ rawEntries (fun s => s == "/etc/hosts") ["/etc/hosts\n"] := by
  decide

/-- C9 (amended): for a non-skipped manifest line, the candidate path used
for the `isfile` existence check is the line with BOTH leading and trailing
whitespace trimmed (Python `line.strip()`), not only trailing whitespace. -/
theorem c9_candidate_fully_stripped (isfileP : String → Bool) (line : String)
    (lines : List String) (h : skipLine line = false) :
    line ∈ rawEntries isfileP lines ↔ line ∈ lines ∧ isfileP (pyStrip line) = true := by
  rw [mem_rawEntries]
  constructor
  · rintro ⟨hmem, -, hf⟩
    exact ⟨hmem, hf⟩
  · rintro ⟨hmem, hf⟩
    exact ⟨hmem, h, hf⟩

theorem c9_witness :
    skipLine "a\n" = false
    ∧ (("a\n" : String) ∈ rawEntries (fun s => s == "a") ["a\n"] ↔
        ("a\n" : String) ∈ ["a\n"] ∧ (fun s => s == "a") (pyStrip "a\n") = true) :=
  ⟨by decide, c9_candidate_fully_stripped (fun s => s == "a") "a\n" ["a\n"] (by decide)⟩

theorem c9_counterexample :
    skipLine "  /etc/hosts\n" = false
    ∧ ((fun s => s == "/etc/hosts") : String → Bool) (trailingTrim "  /etc/hosts\n") = false
    ∧ ("  /etc/hosts\n" : String) ∈ rawEntries (fun s => s == "/etc/hosts") ["  /etc/hosts\n"] := by
  decide

/-- C5 (amended): a non-skipped line whose stripped form is not a regular
file is non-fatal.  Removing it changes neither the raw entry set nor the
closed IncludeSet — it contributes nothing, and in particular none of its
ancestors are added on its behalf (its string can still enter the closure
as an ancestor of a different, valid entry).  A warning identifying it is
printed exactly when verbosity is normal or verbose (`verbosity >= 1`); in
quiet mode nothing is printed at all. -/
theorem c5_invalid_entry_nonfatal (isfileP : String → Bool) (v : Nat) (pre post : List String)
    (bad : String) (h1 : skipLine bad = false) (h2 : isfileP (pyStrip bad) = false) :
    rawEntries isfileP (pre ++ bad :: post) = rawEntries isfileP (pre ++ post)
    ∧ fileListFiles isfileP (pre ++ bad :: post) = fileListFiles isfileP (pre ++ post)
    ∧ (1 ≤ v → warnFor bad ∈ loaderWarnings isfileP v (pre ++ bad :: post))
    ∧ (v = 0 → loaderWarnings isfileP v (pre ++ bad :: post) = []) := by
  have e1 : rawEntries isfileP (pre ++ bad :: post) = rawEntries isfileP (pre ++ post) := by
    apply Finset.ext
    intro t
    rw [mem_rawEntries, mem_rawEntries]
    constructor
    · rintro ⟨hmem, hsk, hf⟩
      rcases List.mem_append.mp hmem with hp | hq
      · exact ⟨List.mem_append_left _ hp, hsk, hf⟩
      · rcases List.mem_cons.mp hq with rfl | hq'
        · rw [h2] at hf
          cases hf
        · exact ⟨List.mem_append_right _ hq', hsk, hf⟩
    · rintro ⟨hmem, hsk, hf⟩
      rcases List.mem_append.mp hmem with hp | hq
      · exact ⟨List.mem_append_left _ hp, hsk, hf⟩
      · exact ⟨List.mem_append_right _ (List.mem_cons_of_mem _ hq), hsk, hf⟩
  refine ⟨e1, by rw [fileListFiles, fileListFiles, e1], ?_, ?_⟩
  · intro hv
    rw [loaderWarnings_append, loaderWarnings_cons_invalid isfileP v bad post h1 h2 hv]
    exact List.mem_append_right _ (List.mem_cons_self _ _)
  · rintro rfl
    exact loaderWarnings_quiet isfileP _

theorem c5_witness :
    skipLine "/nope\n" = false
    ∧ ((fun _ => false) : String → Bool) (pyStrip "/nope\n") = false
    ∧ warnFor "/nope\n" ∈ loaderWarnings (fun _ => false) 1 ([] ++ "/nope\n" :: []) :=
  ⟨by decide, by decide,
    (c5_invalid_entry_nonfatal (fun _ => false) 1 [] [] "/nope\n" (by decide)
      (by decide)).2.2.1 (by decide)⟩

theorem c5_counterexample :
    (skipLine "/nope\n" = false
      ∧ ((fun s => s == "/etc/hosts") : String → Bool) (pyStrip "/nope\n") = false
      ∧ loaderWarnings (fun s => s == "/etc/hosts") 0 ["/etc/hosts\n", "/nope\n"] = [])
    ∧ (skipLine "/etc" = false
      ∧ ((fun s => s == "/etc/hosts") : String → Bool) (pyStrip "/etc") = false
      ∧ ("/etc" : String) ∈ fileListFiles (fun s => s == "/etc/hosts") ["/etc/hosts\n", "/etc"]) := by
  decide

/-- C10: a line that begins with whitespace followed by `#` is NOT skipped
as a comment — the comment test looks only at the raw line's first
character.  The line goes on to the existence check on its fully stripped
form, enters the entry set exactly when that stripped string passes
`isfile`, and otherwise is dropped with a warning at verbosity 1 or 2. -/
theorem c10_whitespace_then_hash (line : String) (c : Char) (rest : List Char)
    (hdata : line.data = c :: rest) (hc : pyIsSpace c = true)
    (hhash : (line.data.dropWhile pyIsSpace).head? = some '#')
    (isfileP : String → Bool) (lines : List String) (v : Nat) :
    skipLine line = false
    ∧ (line ∈ rawEntries isfileP (line :: lines) ↔ isfileP (pyStrip line) = true)
    ∧ (isfileP (pyStrip line) = false → line ∉ rawEntries isfileP (line :: lines))
    ∧ (isfileP (pyStrip line) = false → 1 ≤ v →
        warnFor line ∈ loaderWarnings isfileP v (line :: lines)) := by
  have hch : c ≠ '#' := by
    intro he
    rw [he] at hc
    cases hc
  have h1 : startswithHash line = false := by
    rw [startswithHash, hdata, List.head?_cons, beq_eq_false_iff_ne]
    intro he
    exact hch (Option.some.inj he)
  have h2 : (line == "") = false := by
    rw [beq_eq_false_iff_ne]
    intro he
    have hd := congrArg String.data he
    rw [hdata] at hd
    cases hd
  have h3 : (line == "\n") = false := by
    rw [beq_eq_false_iff_ne]
    intro he
    have hd := congrArg String.data he
    rw [hdata, show ("\n" : String).data = ['\n'] from rfl] at hd
    have hc' : c = '\n' := (List.cons.inj hd).1
    have hr' : rest = [] := (List.cons.inj hd).2
    rw [hdata, hc', hr'] at hhash
    have : (['\n'].dropWhile pyIsSpace).head? = none := by decide
    rw [this] at hhash
    cases hhash
  have hskip : skipLine line = false := by
    rw [skipLine, h1, h2, h3]
    rfl
  refine ⟨hskip, ?_, ?_, ?_⟩
  · rw [mem_rawEntries]
    constructor
    · rintro ⟨-, -, hf⟩
      exact hf
    · intro hf
      exact ⟨List.mem_cons_self _ _, hskip, hf⟩
  · intro hf0 hmem
    rw [mem_rawEntries] at hmem
    rw [hf0] at hmem
    cases hmem.2.2
  · intro hf0 hv
    rw [loaderWarnings_cons_invalid isfileP v line lines hskip hf0 hv]
    exact List.mem_cons_self _ _

theorem c10_witness :
    skipLine " #note" = false :=
  (c10_whitespace_then_hash " #note" ' ' ['#', 'n', 'o', 't', 'e'] rfl (by decide) (by decide)
    (fun _ => false) [] 1).1

theorem mkPath_data (comps : List (List Char)) :
    (mkPath comps).data = '/' :: joinCompsData comps := rfl

theorem joinCompsData_append :
    ∀ (l1 l2 : List (List Char)), l1 ≠ [] → l2 ≠ [] →
      joinCompsData (l1 ++ l2) = joinCompsData l1 ++ '/' :: joinCompsData l2 := by
  intro l1
  induction l1 with
  | nil => intro l2 h1 _; exact absurd rfl h1
  | cons a t ih =>
    intro l2 h1 h2
    cases t with
    | nil =>
      cases l2 with
      | nil => exact absurd rfl h2
      | cons b u => simp [joinCompsData]
    | cons a2 t2 =>
      have hrec := ih l2 (by simp) h2
      have hshape : (a :: a2 :: t2) ++ l2 = a :: a2 :: (t2 ++ l2) := by simp
      rw [hshape]
      show a ++ '/' :: joinCompsData (a2 :: (t2 ++ l2)) = _
      have hshape2 : a2 :: (t2 ++ l2) = (a2 :: t2) ++ l2 := by simp
      rw [hshape2, hrec]
      show a ++ '/' :: (joinCompsData (a2 :: t2) ++ '/' :: joinCompsData l2)
        = (a ++ '/' :: joinCompsData (a2 :: t2)) ++ '/' :: joinCompsData l2
      simp

theorem joinCompsData_ne_nil (cs : List (List Char)) (h : cs ≠ [])
    (hall : ∀ c ∈ cs, c ≠ []) : joinCompsData cs ≠ [] := by
  cases cs with
  | nil => exact absurd rfl h
  | cons a t =>
    cases t with
    | nil => simpa [joinCompsData] using hall a (by simp)
    | cons b u =>
      show a ++ '/' :: joinCompsData (b :: u) ≠ []
      simp

theorem join_reverse_head :
    ∀ (cs : List (List Char)), cs ≠ [] → (∀ c ∈ cs, c ≠ [] ∧ ∀ ch ∈ c, ch ≠ '/') →
      ∃ x rest, (joinCompsData cs).reverse = x :: rest ∧ x ≠ '/' := by
  intro cs
  induction cs with
  | nil => intro h _; exact absurd rfl h
  | cons a t ih =>
    intro _ hall
    cases t with
    | nil =>
      obtain ⟨x, rest, hx⟩ : ∃ x rest, a.reverse = x :: rest := by
        cases hrev : a.reverse with
        | nil => exact absurd (List.reverse_eq_nil_iff.mp hrev) (hall a (by simp)).1
        | cons x rest => exact ⟨x, rest, rfl⟩
      refine ⟨x, rest, by simpa [joinCompsData] using hx, ?_⟩
      have hxm : x ∈ a.reverse := by rw [hx]; exact List.mem_cons_self _ _
      exact (hall a (by simp)).2 x (List.mem_reverse.mp hxm)
    | cons b u =>
      obtain ⟨x, rest, hxr, hx⟩ := ih (by simp) (fun c hc => hall c (List.mem_cons_of_mem _ hc))
      refine ⟨x, rest ++ '/' :: a.reverse, ?_, hx⟩
      show (a ++ '/' :: joinCompsData (b :: u)).reverse = _
      rw [List.reverse_append, List.reverse_cons, hxr]
      simp

theorem pySplitHead_eq (s : String) :
    pySplitHead s =
      if (s.data.reverse.dropWhile (fun c => !(c == '/'))).isEmpty
          || (s.data.reverse.dropWhile (fun c => !(c == '/'))).all (fun c => c == '/') then
        ⟨(s.data.reverse.dropWhile (fun c => !(c == '/'))).reverse⟩
      else
        ⟨((s.data.reverse.dropWhile (fun c => !(c == '/'))).dropWhile
            (fun c => c == '/')).reverse⟩ := rfl

theorem dropWhile_notslash_step (c : List Char) (hc : ∀ ch ∈ c, ch ≠ '/') (R : List Char) :
    ((c.reverse ++ ['/']) ++ R).dropWhile (fun ch => !(ch == '/')) = '/' :: R := by
  have hpos : ∀ a ∈ c.reverse, (fun ch => !(ch == '/')) a = true := by
    intro a ha
    have hne := hc a (List.mem_reverse.mp ha)
    simp [hne]
  rw [List.append_assoc, List.singleton_append, List.dropWhile_append_of_pos hpos,
    List.dropWhile_cons]
  simp

theorem pySplitHead_snoc (cs : List (List Char)) (c : List Char) (hne : cs ≠ [])
    (hall : ∀ d ∈ cs, d ≠ [] ∧ ∀ ch ∈ d, ch ≠ '/') (hc : ∀ ch ∈ c, ch ≠ '/') :
    pySplitHead (mkPath (cs ++ [c])) = mkPath cs := by
  obtain ⟨x, rest, hxr, hxne⟩ := join_reverse_head cs hne hall
  have hxf : (x == '/') = false := beq_eq_false_iff_ne.mpr hxne
  have hdata : (mkPath (cs ++ [c])).data = ('/' :: joinCompsData cs) ++ '/' :: c := by
    rw [mkPath_data, joinCompsData_append cs [c] hne (by simp)]
    show '/' :: (joinCompsData cs ++ '/' :: joinCompsData [c]) = _
    show '/' :: (joinCompsData cs ++ '/' :: c) = _
    simp
  have hrev : (mkPath (cs ++ [c])).data.reverse
      = (c.reverse ++ ['/']) ++ (x :: (rest ++ ['/'])) := by
    rw [hdata, List.reverse_append, List.reverse_cons, List.reverse_cons, hxr]
    simp
  have hdw : (mkPath (cs ++ [c])).data.reverse.dropWhile (fun ch => !(ch == '/'))
      = '/' :: (x :: (rest ++ ['/'])) := by
    rw [hrev, dropWhile_notslash_step c hc]
  rw [pySplitHead_eq, hdw]
  have hcond : (('/' :: (x :: (rest ++ ['/']))).isEmpty
      || ('/' :: (x :: (rest ++ ['/']))).all (fun ch => ch == '/')) = false := by
    simp [List.all_cons, hxf]
  rw [hcond, if_neg Bool.false_ne_true]
  have hdw2 : ('/' :: (x :: (rest ++ ['/']))).dropWhile (fun ch => ch == '/')
      = x :: (rest ++ ['/']) := by
    simp [List.dropWhile_cons, hxf]
  have hfin : (x :: (rest ++ ['/'])).reverse = '/' :: joinCompsData cs := by
    rw [show x :: (rest ++ ['/']) = (x :: rest) ++ ['/'] from rfl, List.reverse_append, ← hxr]
    simp
  rw [hdw2]
  exact congrArg String.mk hfin

theorem pySplitHead_single (c : List Char) (hc : ∀ ch ∈ c, ch ≠ '/') :
    pySplitHead (mkPath [c]) = "/" := by
  have hrev : (mkPath [c]).data.reverse = (c.reverse ++ ['/']) ++ [] := by
    rw [mkPath_data]
    show ('/' :: c).reverse = _
    rw [List.reverse_cons]
    simp
  have hdw : (mkPath [c]).data.reverse.dropWhile (fun ch => !(ch == '/')) = ['/'] := by
    rw [hrev, dropWhile_notslash_step c hc]
  rw [pySplitHead_eq, hdw]
  have hcond : ((['/'] : List Char).isEmpty || (['/'] : List Char).all (fun ch => ch == '/'))
      = true := by decide
  rw [hcond, if_pos rfl]
  rfl

theorem mkPath_ne_root (comps : List (List Char)) (h : validC comps) : mkPath comps ≠ "/" := by
  obtain ⟨hne, hall⟩ := h
  intro he
  have hd := congrArg String.data he
  rw [mkPath_data, show ("/" : String).data = ['/'] from rfl] at hd
  exact joinCompsData_ne_nil comps hne (fun c hc => (hall c hc).1) (List.cons.inj hd).2

theorem ancWalk_root (fuel : Nat) : ancWalk fuel "/" = [] := by
  cases fuel with
  | zero => rfl
  | succ n =>
    show (if ("/" : String) = "/" then [] else _) = []
    rw [if_pos rfl]

theorem chainPaths_snoc (cs : List (List Char)) (c : List Char) :
    chainPaths (cs ++ [c]) = mkPath (cs ++ [c]) :: chainPaths cs := by
  cases cs with
  | nil => simp [chainPaths]
  | cons a t =>
    have hd : (a :: (t ++ [c])).dropLast = a :: t := by
      rw [show a :: (t ++ [c]) = (a :: t) ++ [c] from rfl, List.dropLast_concat]
    rw [show (a :: t) ++ [c] = a :: (t ++ [c]) from rfl, chainPaths, hd]

theorem length_chainPaths (cs : List (List Char)) : (chainPaths cs).length = cs.length := by
  induction cs using List.reverseRecOn with
  | nil => simp [chainPaths]
  | append_singleton t c ih => rw [chainPaths_snoc, List.length_cons, ih]; simp

theorem mem_chainPaths (q : String) :
    ∀ (cs : List (List Char)), q ∈ chainPaths cs ↔
      ∃ i, 1 ≤ i ∧ i ≤ cs.length ∧ q = mkPath (cs.take i) := by
  intro cs
  induction cs using List.reverseRecOn with
  | nil =>
    simp only [chainPaths, List.not_mem_nil, false_iff]
    rintro ⟨i, h1, h2, -⟩
    simp at h2
    omega
  | append_singleton t c ih =>
    rw [chainPaths_snoc, List.mem_cons, ih]
    constructor
    · rintro (rfl | ⟨i, h1, h2, rfl⟩)
      · exact ⟨t.length + 1, by omega, by simp,
          by rw [List.take_of_length_le (by simp)]⟩
      · exact ⟨i, h1, by simp; omega, by rw [List.take_append_of_le_length h2]⟩
    · rintro ⟨i, h1, h2, rfl⟩
      have hl : i ≤ t.length + 1 := by simpa using h2
      by_cases hi : i ≤ t.length
      · exact Or.inr ⟨i, h1, hi, by rw [List.take_append_of_le_length hi]⟩
      · left
        have hieq : i = t.length + 1 := by omega
        rw [hieq, List.take_of_length_le (by simp)]

theorem length_mkPath (comps : List (List Char)) :
    (mkPath comps).length = 1 + (joinCompsData comps).length := by
  show ('/' :: joinCompsData comps).length = _
  simp [Nat.add_comm]

theorem mkPath_take_length_lt (comps : List (List Char)) (_hall : ∀ c ∈ comps, c ≠ [])
    (i j : Nat) (h1 : 1 ≤ i) (hij : i < j) (hj : j ≤ comps.length) :
    (mkPath (comps.take i)).length < (mkPath (comps.take j)).length := by
  have hjlen : (comps.take j).length = j := by rw [List.length_take]; omega
  have hsplit : comps.take i = (comps.take j).take i := by
    rw [List.take_take, Nat.min_eq_left (Nat.le_of_lt hij)]
  have hdecomp : comps.take j = comps.take i ++ (comps.take j).drop i := by
    rw [hsplit]
    exact (List.take_append_drop i _).symm
  have hne1 : comps.take i ≠ [] := by
    have hlen : (comps.take i).length = i := by rw [List.length_take]; omega
    intro he
    rw [he] at hlen
    simp at hlen
    omega
  have hne2 : (comps.take j).drop i ≠ [] := by
    have hlen : ((comps.take j).drop i).length = j - i := by rw [List.length_drop, hjlen]
    intro he
    rw [he] at hlen
    simp at hlen
    omega
  have hJ : joinCompsData (comps.take j)
      = joinCompsData (comps.take i) ++ '/' :: joinCompsData ((comps.take j).drop i) := by
    conv_lhs => rw [hdecomp]
    exact joinCompsData_append _ _ hne1 hne2
  rw [length_mkPath, length_mkPath, hJ]
  simp

theorem chainPaths_nodup :
    ∀ (cs : List (List Char)), (∀ c ∈ cs, c ≠ []) → (chainPaths cs).Nodup := by
  intro cs
  induction cs using List.reverseRecOn with
  | nil => intro _; simp [chainPaths]
  | append_singleton t c ih =>
    intro hall
    rw [chainPaths_snoc]
    refine List.nodup_cons.mpr ⟨?_, ih (fun d hd => hall d (List.mem_append_left _ hd))⟩
    intro hmem
    rw [mem_chainPaths] at hmem
    obtain ⟨i, h1, h2, heq⟩ := hmem
    have hlt : (mkPath ((t ++ [c]).take i)).length
        < (mkPath ((t ++ [c]).take (t.length + 1))).length :=
      mkPath_take_length_lt (t ++ [c]) hall i (t.length + 1) h1 (by omega) (by simp)
    rw [List.take_append_of_le_length h2] at hlt
    rw [List.take_of_length_le (show (t ++ [c]).length ≤ t.length + 1 by simp)] at hlt
    rw [← heq] at hlt
    exact lt_irrefl _ hlt

theorem length_le_mkPath (comps : List (List Char)) (hall : ∀ c ∈ comps, c ≠ []) :
    comps.length ≤ (mkPath comps).length := by
  have hJ : ∀ (cs : List (List Char)), (∀ c ∈ cs, c ≠ []) →
      cs.length ≤ (joinCompsData cs).length + 1 := by
    intro cs
    induction cs with
    | nil => intro _; simp [joinCompsData]
    | cons a t ihh =>
      intro hall2
      cases t with
      | nil => simp [joinCompsData]
      | cons b u =>
        have hrec := ihh (fun d hd => hall2 d (List.mem_cons_of_mem _ hd))
        have ha : a ≠ [] := hall2 a (by simp)
        have halen : 1 ≤ a.length := List.length_pos.mpr ha
        show (a :: b :: u).length ≤ (a ++ '/' :: joinCompsData (b :: u)).length + 1
        simp only [List.length_cons, List.length_append] at *
        omega
  rw [length_mkPath]
  have := hJ comps hall
  omega

theorem ancWalk_mkPath :
    ∀ (cs : List (List Char)), validC cs → ∀ fuel, cs.length ≤ fuel →
      ancWalk fuel (mkPath cs) = chainPaths cs := by
  intro cs
  induction cs using List.reverseRecOn with
  | nil => intro h; exact absurd rfl h.1
  | append_singleton t c ih =>
    intro hv fuel hfuel
    rw [List.length_append, List.length_singleton] at hfuel
    cases fuel with
    | zero => omega
    | succ n =>
      have hne : mkPath (t ++ [c]) ≠ "/" := mkPath_ne_root _ hv
      show (if mkPath (t ++ [c]) = "/" then []
        else mkPath (t ++ [c]) :: ancWalk n (pySplitHead (mkPath (t ++ [c]))))
        = chainPaths (t ++ [c])
      rw [if_neg hne, chainPaths_snoc]
      have hcslash : ∀ ch ∈ c, ch ≠ '/' :=
        (hv.2 c (List.mem_append_right _ (List.mem_singleton_self _))).2
      cases t with
      | nil =>
        simp only [List.nil_append]
        rw [pySplitHead_single c hcslash, ancWalk_root]
        simp [chainPaths]
      | cons a s =>
        have hvt : validC (a :: s) :=
          ⟨by simp, fun d hd => hv.2 d (List.mem_append_left _ hd)⟩
        rw [pySplitHead_snoc (a :: s) c (by simp) hvt.2 hcslash,
          ih hvt n (by simp at hfuel ⊢; omega)]

theorem pyAncestors_mkPath (comps : List (List Char)) (h : validC comps) :
    pyAncestors (mkPath comps) = chainPaths comps.dropLast := by
  induction comps using List.reverseRecOn with
  | nil => exact absurd rfl h.1
  | append_singleton t c _ =>
    have hcslash : ∀ ch ∈ c, ch ≠ '/' :=
      (h.2 c (List.mem_append_right _ (List.mem_singleton_self _))).2
    rw [pyAncestors, List.dropLast_concat]
    cases t with
    | nil =>
      simp only [List.nil_append]
      rw [pySplitHead_single c hcslash, ancWalk_root]
      simp [chainPaths]
    | cons a s =>
      have hvt : validC (a :: s) :=
        ⟨by simp, fun d hd => h.2 d (List.mem_append_left _ hd)⟩
      rw [pySplitHead_snoc (a :: s) c (by simp) hvt.2 hcslash]
      refine ancWalk_mkPath (a :: s) hvt _ ?_
      have hlen := length_le_mkPath ((a :: s) ++ [c]) (fun d hd => (h.2 d hd).1)
      rw [List.length_append, List.length_singleton] at hlen
      omega

theorem mem_splitClosure (P : Finset String) (q : String) :
    q ∈ splitClosure P ↔ q ∈ P ∨ ∃ p ∈ P, q ∈ pyAncestors p := by
  simp [splitClosure, Finset.mem_union, Finset.mem_biUnion, List.mem_toFinset]

theorem validC_take (comps : List (List Char)) (h : validC comps) (i : Nat) (h1 : 1 ≤ i) :
    validC (comps.take i) := by
  constructor
  · have hlen : (comps.take i).length = min i comps.length := List.length_take _ _
    have hpos : 0 < comps.length := List.length_pos.mpr h.1
    intro he
    rw [he] at hlen
    simp at hlen
    omega
  · intro c hc
    exact h.2 c (List.take_subset i comps hc)

/-- C1: for an absolute file path with component list `comps` (so `N =
comps.length` separator-delimited components), the ancestor closure of the
singleton `{mkPath comps}` has cardinality `N` — the path itself plus
exactly `N - 1` ancestor directories — never contains the root `/`, and
every member other than the path itself is a strict prefix of the path
that ends at a separator boundary (`p = q ++ "/" ++ r` with `r` non-empty). -/
theorem c1_singleton_closure (comps : List (List Char)) (h : validC comps) :
    (splitClosure {mkPath comps}).card = comps.length
    ∧ mkPath comps ∈ splitClosure {mkPath comps}
    ∧ ((splitClosure {mkPath comps}).erase (mkPath comps)).card = comps.length - 1
    ∧ ("/" : String) ∉ splitClosure {mkPath comps}
    ∧ ∀ q ∈ splitClosure {mkPath comps}, q ≠ mkPath comps →
        ∃ r : String, r ≠ "" ∧ mkPath comps = q ++ "/" ++ r := by
  have hanc : pyAncestors (mkPath comps) = chainPaths comps.dropLast :=
    pyAncestors_mkPath comps h
  have hmem : ∀ q, q ∈ splitClosure {mkPath comps} ↔
      q = mkPath comps ∨ q ∈ chainPaths comps.dropLast := by
    intro q
    rw [mem_splitClosure]
    simp [Finset.mem_singleton, hanc]
  have hpos : 0 < comps.length := List.length_pos.mpr h.1
  have hdltake : ∀ i, i ≤ comps.length - 1 →
      (comps.dropLast).take i = comps.take i := by
    intro i hi
    rw [List.dropLast_eq_take, List.take_take]
    congr 1
    omega
  have hnotmem : mkPath comps ∉ chainPaths comps.dropLast := by
    intro hmem2
    rw [mem_chainPaths] at hmem2
    obtain ⟨i, h1, h2, heq⟩ := hmem2
    rw [List.length_dropLast] at h2
    rw [hdltake i h2] at heq
    have hlt := mkPath_take_length_lt comps (fun d hd => (h.2 d hd).1) i comps.length h1
      (by omega) (le_refl _)
    rw [List.take_length] at hlt
    rw [← heq] at hlt
    exact lt_irrefl _ hlt
  have hSeq : splitClosure {mkPath comps}
      = insert (mkPath comps) (chainPaths comps.dropLast).toFinset := by
    apply Finset.ext
    intro q
    rw [hmem q, Finset.mem_insert, List.mem_toFinset]
  have hnodup : (chainPaths comps.dropLast).Nodup :=
    chainPaths_nodup comps.dropLast (fun d hd => (h.2 d (List.dropLast_subset _ hd)).1)
  have hcard : (splitClosure {mkPath comps}).card = comps.length := by
    rw [hSeq, Finset.card_insert_of_not_mem (by rw [List.mem_toFinset]; exact hnotmem),
      List.toFinset_card_of_nodup hnodup, length_chainPaths, List.length_dropLast]
    omega
  have hself : mkPath comps ∈ splitClosure {mkPath comps} := (hmem _).mpr (Or.inl rfl)
  refine ⟨hcard, hself, ?_, ?_, ?_⟩
  · rw [Finset.card_erase_of_mem hself, hcard]
  · rw [hmem]
    rintro (he | hanc2)
    · exact mkPath_ne_root comps h he.symm
    · rw [mem_chainPaths] at hanc2
      obtain ⟨i, h1, h2, heq⟩ := hanc2
      rw [List.length_dropLast] at h2
      rw [hdltake i h2] at heq
      have hvt : validC (comps.take i) := validC_take comps h i h1
      exact mkPath_ne_root _ hvt heq.symm
  · intro q hq hne2
    rw [hmem] at hq
    rcases hq with rfl | hq2
    · exact absurd rfl hne2
    · rw [mem_chainPaths] at hq2
      obtain ⟨i, h1, h2, rfl⟩ := hq2
      rw [List.length_dropLast] at h2
      rw [hdltake i h2]
      have hne1 : comps.take i ≠ [] := (validC_take comps h i h1).1
      have hnedrop : comps.drop i ≠ [] := by
        have hlen : (comps.drop i).length = comps.length - i := List.length_drop _ _
        intro he
        rw [he] at hlen
        simp at hlen
        omega
      refine ⟨⟨joinCompsData (comps.drop i)⟩, ?_, ?_⟩
      · intro he
        have hd := congrArg String.data he
        exact joinCompsData_ne_nil (comps.drop i) hnedrop
          (fun d hd2 => (h.2 d (List.drop_subset _ _ hd2)).1) hd
      · have hJ : joinCompsData comps
            = joinCompsData (comps.take i) ++ '/' :: joinCompsData (comps.drop i) := by
          conv_lhs => rw [← List.take_append_drop i comps]
          exact joinCompsData_append _ _ hne1 hnedrop
        apply String.ext
        show '/' :: joinCompsData comps
          = ((mkPath (comps.take i) ++ "/") ++ ⟨joinCompsData (comps.drop i)⟩).data
        rw [hJ]
        show '/' :: (joinCompsData (comps.take i) ++ '/' :: joinCompsData (comps.drop i))
          = (('/' :: joinCompsData (comps.take i)) ++ ['/']) ++ joinCompsData (comps.drop i)
        simp

theorem c1_witness :
    (splitClosure {mkPath [['e', 't', 'c'], ['s', 's', 'h']]}).card = 2 :=
  (c1_singleton_closure [['e', 't', 'c'], ['s', 's', 'h']] (by decide)).1

theorem pyAncestors_valid_sub (comps : List (List Char)) (h : validC comps) (q : String)
    (hq : q ∈ pyAncestors (mkPath comps)) :
    validPathStr q ∧ ∀ r ∈ pyAncestors q, r ∈ pyAncestors (mkPath comps) := by
  have hpos : 0 < comps.length := List.length_pos.mpr h.1
  have hdltake : ∀ i, i ≤ comps.length - 1 →
      (comps.dropLast).take i = comps.take i := by
    intro i hi
    rw [List.dropLast_eq_take, List.take_take]
    congr 1
    omega
  rw [pyAncestors_mkPath comps h, mem_chainPaths] at hq
  obtain ⟨i, h1, h2, rfl⟩ := hq
  rw [List.length_dropLast] at h2
  rw [hdltake i h2]
  have hvt : validC (comps.take i) := validC_take comps h i h1
  have hitake : (comps.take i).length = i := by
    rw [List.length_take]
    omega
  refine ⟨⟨comps.take i, hvt, rfl⟩, ?_⟩
  intro r hr
  rw [pyAncestors_mkPath _ hvt, mem_chainPaths] at hr
  obtain ⟨j, hj1, hj2, rfl⟩ := hr
  rw [List.length_dropLast, hitake] at hj2
  have he1 : ((comps.take i).dropLast).take j = comps.take j := by
    rw [List.dropLast_eq_take, List.take_take, List.take_take, hitake]
    congr 1
    omega
  rw [pyAncestors_mkPath comps h, mem_chainPaths, he1]
  refine ⟨j, hj1, ?_, ?_⟩
  · rw [List.length_dropLast]
    omega
  · rw [hdltake j (by omega)]

/-- C2: applied to a set of well-formed absolute file paths, the ancestor
expansion of `FileList.__split` is idempotent: expanding an
already-expanded set changes nothing. -/
theorem c2_closure_idempotent (P : Finset String) (h : ∀ p ∈ P, validPathStr p) :
    splitClosure (splitClosure P) = splitClosure P := by
  apply Finset.Subset.antisymm
  · intro q hq
    rw [mem_splitClosure] at hq
    rcases hq with hq | ⟨r, hr, hqr⟩
    · exact hq
    · rw [mem_splitClosure] at hr
      rcases hr with hr | ⟨p, hp, hrp⟩
      · rw [mem_splitClosure]
        exact Or.inr ⟨r, hr, hqr⟩
      · obtain ⟨comps, hc, rfl⟩ := h p hp
        have hsub := (pyAncestors_valid_sub comps hc r hrp).2
        rw [mem_splitClosure]
        exact Or.inr ⟨mkPath comps, hp, hsub q hqr⟩
  · intro q hq
    rw [mem_splitClosure]
    exact Or.inl hq

theorem c2_witness :
    splitClosure (splitClosure {mkPath [['a'], ['b']]}) = splitClosure {mkPath [['a'], ['b']]} :=
  c2_closure_idempotent {mkPath [['a'], ['b']]} (by
    intro p hp
    rw [Finset.mem_singleton] at hp
    subst hp
    exact ⟨[['a'], ['b']], by decide, rfl⟩)

theorem isIncludeArg_append (s : String) : isIncludeArg ("--include=" ++ s) = true := by
  rw [isIncludeArg, decide_eq_true_eq, String.data_append]
  exact List.take_left _ _

theorem isIncludeArg_verbFlag (v : Nat) : isIncludeArg (verbFlag v) = false := by
  rw [verbFlag]
  by_cases hv : 2 ≤ v
  · rw [if_pos hv]; decide
  · rw [if_neg hv]
    by_cases hv0 : v = 0
    · rw [if_pos hv0]; decide
    · rw [if_neg hv0]; decide

theorem isIncludeArg_flags (fd fi fc fda : Bool) :
    isIncludeArg (spaceJoin (mainFlags fd fi fc fda)) = false := by
  cases fd <;> cases fi <;> cases fc <;> cases fda <;> decide

/-- C3 counterexample: with destination directory `/backup` and host
identifier `/host1`, the final command argument is
`normpath("/backup" + "/" + "/host1") = "/backup/host1"`, whereas the
spec's `join(destination_directory, host_identifier)` is `/host1` — the
two computations disagree, so the claim's description of the final
argument is false on this input. -/
theorem c3_counterexample :
    (buildCommand "/usr/bin/rsync" 1 "" ["/etc"] "/backup" "/host1").getLast?
      = some "/backup/host1"
    ∧ pyJoin "/backup" "/host1" = "/host1"
    ∧ ("/backup/host1" : String) ≠ "/host1" := by
  decide

/-- C3 (amended): the constructed command is exactly
`[rsync_loc, verbosity-flag, "--archive", space-joined-optional-flags]`,
then one include rule `--include=<entry.strip()>` per IncludeSet member (in
enumeration order), then the single catch-all exclude rule, then the
source root `/`, then `normpath(destination_directory + '/' +
host_identifier)` as the final argument (the code uses `normpath` of the
concatenation, not `join`).  Under the side conditions that neither the
rsync path nor the destination is itself spelled like an include rule, the
command contains exactly one include-rule argument per enumerated member. -/
theorem c3_command_structure (rsync_loc : String) (v : Nat) (fd fi fc fda : Bool)
    (fl : List String) (target host : String)
    (h1 : isIncludeArg rsync_loc = false)
    (h2 : isIncludeArg (pyNormpath (target ++ "/" ++ host)) = false) :
    buildCommand rsync_loc v (spaceJoin (mainFlags fd fi fc fda)) fl target host
      = [rsync_loc, verbFlag v, "--archive", spaceJoin (mainFlags fd fi fc fda)]
        ++ fl.map (fun f => "--include=" ++ pyStrip f)
        ++ ["--exclude='*'", "/", pyNormpath (target ++ "/" ++ host)]
    ∧ ((buildCommand rsync_loc v (spaceJoin (mainFlags fd fi fc fda)) fl target host).filter
        isIncludeArg).length = fl.length
    ∧ (buildCommand rsync_loc v (spaceJoin (mainFlags fd fi fc fda)) fl target host).getLast?
        = some (pyNormpath (target ++ "/" ++ host))
    ∧ ∀ f ∈ fl, ("--include=" ++ pyStrip f)
        ∈ buildCommand rsync_loc v (spaceJoin (mainFlags fd fi fc fda)) fl target host := by
  have heq : buildCommand rsync_loc v (spaceJoin (mainFlags fd fi fc fda)) fl target host
      = [rsync_loc, verbFlag v, "--archive", spaceJoin (mainFlags fd fi fc fda)]
        ++ fl.map (fun f => "--include=" ++ pyStrip f)
        ++ ["--exclude='*'", "/", pyNormpath (target ++ "/" ++ host)] := by
    simp [buildCommand]
  refine ⟨heq, ?_, ?_, ?_⟩
  · rw [heq, List.filter_append, List.filter_append]
    have hpre : List.filter isIncludeArg
        [rsync_loc, verbFlag v, "--archive", spaceJoin (mainFlags fd fi fc fda)] = [] := by
      simp [List.filter_cons, h1, isIncludeArg_verbFlag, isIncludeArg_flags,
        show isIncludeArg "--archive" = false from by decide]
    have hmap : (fl.map (fun f => "--include=" ++ pyStrip f)).filter isIncludeArg
        = fl.map (fun f => "--include=" ++ pyStrip f) :=
      List.filter_eq_self.mpr (by
        intro a ha
        rw [List.mem_map] at ha
        obtain ⟨f, -, rfl⟩ := ha
        exact isIncludeArg_append (pyStrip f))
    have htail : List.filter isIncludeArg
        ["--exclude='*'", "/", pyNormpath (target ++ "/" ++ host)] = [] := by
      simp [List.filter_cons, h2, show isIncludeArg "--exclude='*'" = false from by decide,
        show isIncludeArg "/" = false from by decide]
    rw [hpre, hmap, htail]
    simp
  · exact List.getLast?_concat _
  · intro f hf
    rw [heq]
    exact List.mem_append_left _ (List.mem_append_right _ (List.mem_map_of_mem _ hf))

theorem c3_witness :
    isIncludeArg "/usr/bin/rsync" = false
    ∧ isIncludeArg (pyNormpath ("/backup" ++ "/" ++ "host1")) = false
    ∧ ((buildCommand "/usr/bin/rsync" 1 (spaceJoin (mainFlags false false false false))
        ["/etc"] "/backup" "host1").filter isIncludeArg).length = 1 :=
  ⟨by decide, by decide,
    (c3_command_structure "/usr/bin/rsync" 1 false false false false ["/etc"] "/backup" "host1"
      (by decide) (by decide)).2.1⟩

theorem includeArg_ne_verbose (s : String) : ("--include=" ++ s) ≠ "--verbose" := by
  intro he
  have hl := congrArg String.length he
  rw [String.length_append, show ("--include=" : String).length = 10 from by decide,
    show ("--verbose" : String).length = 9 from by decide] at hl
  omega

theorem includeArg_ne_quiet (s : String) : ("--include=" ++ s) ≠ "--quiet" := by
  intro he
  have hl := congrArg String.length he
  rw [String.length_append, show ("--include=" : String).length = 10 from by decide,
    show ("--quiet" : String).length = 7 from by decide] at hl
  omega

theorem flags_ne_verbose (fd fi fc fda : Bool) :
    spaceJoin (mainFlags fd fi fc fda) ≠ "--verbose" := by
  cases fd <;> cases fi <;> cases fc <;> cases fda <;> decide

theorem flags_ne_quiet (fd fi fc fda : Bool) :
    spaceJoin (mainFlags fd fi fc fda) ≠ "--quiet" := by
  cases fd <;> cases fi <;> cases fc <;> cases fda <;> decide

theorem verbTokens_not_mem_cmd (rsync_loc : String) (fd fi fc fda : Bool) (fl : List String)
    (target host : String)
    (hloc : rsync_loc ≠ "--verbose" ∧ rsync_loc ≠ "--quiet")
    (hdest : pyNormpath (target ++ "/" ++ host) ≠ "--verbose"
      ∧ pyNormpath (target ++ "/" ++ host) ≠ "--quiet") :
    "--verbose" ∉ buildCommand rsync_loc 1 (spaceJoin (mainFlags fd fi fc fda)) fl target host
    ∧ "--quiet" ∉ buildCommand rsync_loc 1 (spaceJoin (mainFlags fd fi fc fda)) fl target host := by
  have hverb : verbFlag 1 = "" := by decide
  constructor
  · intro hmem
    simp only [buildCommand, hverb, List.mem_append, List.mem_cons, List.mem_map,
      List.not_mem_nil, or_false] at hmem
    rcases hmem with (((((h | h | h) | h) | ⟨f, -, h⟩) | h) | h) | h
    · exact hloc.1 h.symm
    · exact absurd h.symm (by decide)
    · exact absurd h.symm (by decide)
    · exact flags_ne_verbose fd fi fc fda h.symm
    · exact includeArg_ne_verbose (pyStrip f) h
    · exact absurd h.symm (by decide)
    · exact absurd h.symm (by decide)
    · exact hdest.1 h.symm
  · intro hmem
    simp only [buildCommand, hverb, List.mem_append, List.mem_cons, List.mem_map,
      List.not_mem_nil, or_false] at hmem
    rcases hmem with (((((h | h | h) | h) | ⟨f, -, h⟩) | h) | h) | h
    · exact hloc.2 h.symm
    · exact absurd h.symm (by decide)
    · exact absurd h.symm (by decide)
    · exact flags_ne_quiet fd fi fc fda h.symm
    · exact includeArg_ne_quiet (pyStrip f) h
    · exact absurd h.symm (by decide)
    · exact absurd h.symm (by decide)
    · exact hdest.2 h.symm

/-- C7: with quiet selected the subprocess's standard output is redirected
to `/dev/null`; with verbose selected (and not quiet) the command contains
the explicit `--verbose` flag; with neither selected the command contains
no verbosity flag at all.  The side conditions only rule out the rsync
executable path or the destination being literally spelled `--verbose` /
`--quiet`. -/
theorem c7_verbosity_selection (quiet verbose : Bool) (isdirP : String → Bool)
    (rsync_loc : String) (fd fi fc fda : Bool) (fl : List String) (target host : String)
    (hdir : isdirP target = true)
    (hloc : rsync_loc ≠ "--verbose" ∧ rsync_loc ≠ "--quiet")
    (hdest : pyNormpath (target ++ "/" ++ host) ≠ "--verbose"
      ∧ pyNormpath (target ++ "/" ++ host) ≠ "--quiet") :
    (quiet = true →
      (rsyncerInit isdirP rsync_loc fl target host (mainVerbosity quiet verbose)
        (spaceJoin (mainFlags fd fi fc fda))).map (fun inv => inv.stdoutToDevnull)
        = .ok true)
    ∧ (quiet = false → verbose = true →
      (rsyncerInit isdirP rsync_loc fl target host (mainVerbosity quiet verbose)
        (spaceJoin (mainFlags fd fi fc fda))).map
        (fun inv => decide ("--verbose" ∈ inv.command)) = .ok true)
    ∧ (quiet = false → verbose = false →
      (rsyncerInit isdirP rsync_loc fl target host (mainVerbosity quiet verbose)
        (spaceJoin (mainFlags fd fi fc fda))).map
        (fun inv => decide ("--verbose" ∈ inv.command ∨ "--quiet" ∈ inv.command))
        = .ok false) := by
  refine ⟨?_, ?_, ?_⟩
  · rintro rfl
    rw [rsyncerInit, if_pos hdir]
    simp [mainVerbosity, Except.map]
  · rintro rfl rfl
    rw [rsyncerInit, if_pos hdir]
    simp only [Except.map]
    have hm : ("--verbose" : String)
        ∈ buildCommand rsync_loc (mainVerbosity false true)
          (spaceJoin (mainFlags fd fi fc fda)) fl target host := by
      rw [show mainVerbosity false true = 2 from rfl]
      rw [buildCommand, show verbFlag 2 = "--verbose" from by decide]
      exact List.mem_append_left _ (List.mem_append_left _ (List.mem_append_left _
        (List.mem_append_left _ (List.mem_append_left _
          (List.mem_cons_of_mem _ (List.mem_cons_self _ _))))))
    simp [hm]
  · rintro rfl rfl
    rw [rsyncerInit, if_pos hdir]
    simp only [Except.map]
    have hnm := verbTokens_not_mem_cmd rsync_loc fd fi fc fda fl target host hloc hdest
    rw [show mainVerbosity false false = 1 from rfl]
    simp [hnm.1, hnm.2]

theorem c7_witness :
    ((fun _ => true) : String → Bool) "/backup" = true
    ∧ ("/usr/bin/rsync" : String) ≠ "--verbose" ∧ ("/usr/bin/rsync" : String) ≠ "--quiet"
    ∧ (rsyncerInit (fun _ => true) "/usr/bin/rsync" ["/etc"] "/backup" "host1"
        (mainVerbosity true false) (spaceJoin (mainFlags false false false false))).map
        (fun inv => inv.stdoutToDevnull) = .ok true :=
  ⟨rfl, by decide, by decide,
    (c7_verbosity_selection true false (fun _ => true) "/usr/bin/rsync" false false false false
      ["/etc"] "/backup" "host1" rfl ⟨by decide, by decide⟩ ⟨by decide, by decide⟩).1 rfl⟩

theorem exitWith_spec (v : Nat) (msg : String) :
    (exitWith v msg).code = 1
    ∧ (1 ≤ v → (exitWith v msg).stderrMsg = some msg)
    ∧ (v = 0 → (exitWith v msg).stderrMsg = none) := by
  rw [exitWith]
  by_cases hv : 1 ≤ v
  · rw [if_pos hv]
    exact ⟨rfl, fun _ => rfl, fun h0 => by omega⟩
  · rw [if_neg hv]
    exact ⟨rfl, fun h1 => absurd h1 hv, fun _ => rfl⟩

theorem mainRun_error_cases (isfileP isdirP : String → Bool) (rsyncLocOpt : Option String)
    (manifestLines : List String) (quiet verbose fd fi fc fda : Bool)
    (hostOpt : Option String) (machineHost input_file target : String) (e : ExitInfo)
    (he : mainRun isfileP isdirP rsyncLocOpt manifestLines quiet verbose fd fi fc fda
      hostOpt machineHost input_file target = .error e) :
    e = exitWith (mainVerbosity quiet verbose) "Can not find rsync."
    ∨ e = exitWith (mainVerbosity quiet verbose) "Input file list not found!"
    ∨ e = exitWith (mainVerbosity quiet verbose) "Target directory not found!" := by
  cases rsyncLocOpt with
  | none =>
    rw [mainRun] at he
    exact Or.inl (Except.error.inj he).symm
  | some loc =>
    rw [mainRun, fileListLoad] at he
    cases hf : isfileP input_file with
    | false =>
      rw [hf] at he
      simp only [Bool.false_eq_true, if_false] at he
      exact Or.inr (Or.inl (Except.error.inj he).symm)
    | true =>
      rw [hf] at he
      simp only [if_true] at he
      rw [rsyncerInit] at he
      cases hd : isdirP target with
      | false =>
        rw [hd] at he
        simp only [Bool.false_eq_true, if_false] at he
        exact Or.inr (Or.inr (Except.error.inj he).symm)
      | true =>
        rw [hd] at he
        simp only [if_true] at he
        cases he

/-- C4 (amended): each fatal condition — sync executable not found,
manifest file not found, destination directory not found — terminates the
process immediately with exit status 1, without building a command or
invoking any subprocess (the run result is an `Except.error`, never an
`Invocation`).  A message is written to standard error exactly when
verbosity is normal or verbose (`verbosity >= 1`); in quiet mode the exit
is silent (`sys.exit(1)` with no message). -/
theorem c4_fatal_conditions (isfileP isdirP : String → Bool) (rsyncLocOpt : Option String)
    (manifestLines : List String) (quiet verbose fd fi fc fda : Bool)
    (hostOpt : Option String) (machineHost input_file target : String) :
    (rsyncLocOpt = none →
      mainRun isfileP isdirP rsyncLocOpt manifestLines quiet verbose fd fi fc fda
        hostOpt machineHost input_file target
        = .error (exitWith (mainVerbosity quiet verbose) "Can not find rsync."))
    ∧ (∀ loc, rsyncLocOpt = some loc → isfileP input_file = false →
      mainRun isfileP isdirP rsyncLocOpt manifestLines quiet verbose fd fi fc fda
        hostOpt machineHost input_file target
        = .error (exitWith (mainVerbosity quiet verbose) "Input file list not found!"))
    ∧ (∀ loc, rsyncLocOpt = some loc → isfileP input_file = true → isdirP target = false →
      mainRun isfileP isdirP rsyncLocOpt manifestLines quiet verbose fd fi fc fda
        hostOpt machineHost input_file target
        = .error (exitWith (mainVerbosity quiet verbose) "Target directory not found!"))
    ∧ (∀ e, mainRun isfileP isdirP rsyncLocOpt manifestLines quiet verbose fd fi fc fda
        hostOpt machineHost input_file target = .error e →
      e.code = 1
      ∧ (1 ≤ mainVerbosity quiet verbose → e.stderrMsg ≠ none)
      ∧ (mainVerbosity quiet verbose = 0 → e.stderrMsg = none)) := by
  refine ⟨?_, ?_, ?_, ?_⟩
  · rintro rfl
    rfl
  · rintro loc rfl hf
    rw [mainRun, fileListLoad, hf]
    rfl
  · rintro loc rfl hf hd
    rw [mainRun, fileListLoad, hf]
    simp only [if_true]
    rw [rsyncerInit, hd]
    rfl
  · intro e he
    rcases mainRun_error_cases isfileP isdirP rsyncLocOpt manifestLines quiet verbose
      fd fi fc fda hostOpt machineHost input_file target e he with rfl | rfl | rfl <;>
      refine ⟨(exitWith_spec _ _).1, fun h1 => ?_, (exitWith_spec _ _).2.2⟩ <;>
      rw [(exitWith_spec _ _).2.1 h1] <;>
      exact Option.some_ne_none _

/-- C4 counterexample: in quiet mode (`--quiet`), a missing rsync
executable terminates the run with exit code 1 and NO message on standard
error (`sys.exit(1)`), contradicting the claim that every fatal condition
produces a standard-error message. -/
theorem c4_counterexample :
    mainRun (fun _ => false) (fun _ => false) none [] true false false false false false none
      "host" "/in" "/t" = .error ⟨1, none⟩
    ∧ (ExitInfo.mk 1 none).stderrMsg = none :=
  ⟨rfl, rfl⟩

theorem c4_witness :
    mainRun (fun _ => false) (fun _ => false) none [] false false false false false false none
      "host" "/in" "/t"
      = .error (exitWith (mainVerbosity false false) "Can not find rsync.") :=
  (c4_fatal_conditions (fun _ => false) (fun _ => false) none [] false false false false false
    false none "host" "/in" "/t").1 rfl
